import Mathlib

/-
Verification of the boot-animation diagnostic engine
(src/cmds/bootanimation/BootAnimation.cpp).

The definitions below are a shallow embedding of the console buffer
(initBuffer / printLine / replaceLine / drawText), the log multiplexer and
filter (processLog), the input watcher (initInput / checkInput), the
description parser and the frame pacing of BootAnimation::movie.  Machine
integers are modelled as Nat / Int (no overflow is relevant at the sizes
involved), C strings as null-free `List Char`, and the non-blocking device
reads as explicit lists of pending read results.
-/

set_option maxRecDepth 4000

namespace BootAnim

/-- Null character, the C string terminator used throughout the console model. -/
def nul : Char := Char.ofNat 0

/-! ## RingConsole: initBuffer (lines 308-325), printLine (327-342),
replaceLine (344-351), and the per-row scan of drawText (line 360). -/

/-- Console state: `mRows`, `mCols` (from initFont), the row buffers
`mLineBuffer` (each row `mCols + 1` bytes) and the ring cursor `mBufferPos`. -/
structure Console where
  rows : Nat
  cols : Nat
  buf : List (List Char)
  bufferPos : Nat
deriving DecidableEq

/-- BootAnimation::initBuffer: allocate `rows` rows of `cols + 1` bytes, all
zero bytes; the cursor starts at 0.  When either dimension is zero the source
leaves `mLineBuffer` null, modelled as an empty row list. -/
def initBuffer (rows cols : Nat) : Console :=
  if 0 < cols ∧ 0 < rows then
    { rows := rows, cols := cols,
      buf := List.replicate rows (List.replicate (cols + 1) nul),
      bufferPos := 0 }
  else
    { rows := rows, cols := cols, buf := [], bufferPos := 0 }

/-- `mLineBuffer[r][c] = ch`. -/
def writeCell (b : List (List Char)) (r c : Nat) (ch : Char) : List (List Char) :=
  b.set r ((b.getD r []).set c ch)

/-- The trailing loop of printLine:
`while (col < mCols) mLineBuffer[mBufferPos][col++] = '\0';`. -/
def padCells (b : List (List Char)) (r col cols : Nat) : List (List Char) :=
  (List.range (cols - col)).foldl (fun bb i => writeCell bb r (col + i) nul) b

/-- The body of BootAnimation::printLine, from an arbitrary starting column.
The character loop `while ((c = *s++))` stops at the terminator; writing a
character advances `col`, and reaching `mCols` wraps to column 0 of the next
row (`mBufferPos = (mBufferPos + 1) % mRows`).  After the text the remainder
of the current row is zero-padded and the cursor advances once more. -/
def printLineFrom (st : Console) (col : Nat) : List Char → Console
  | [] =>
    { st with buf := padCells st.buf st.bufferPos col st.cols,
              bufferPos := (st.bufferPos + 1) % st.rows }
  | c :: s =>
    if c = nul then
      { st with buf := padCells st.buf st.bufferPos col st.cols,
                bufferPos := (st.bufferPos + 1) % st.rows }
    else
      if col + 1 ≥ st.cols then
        printLineFrom { st with buf := writeCell st.buf st.bufferPos col c,
                                bufferPos := (st.bufferPos + 1) % st.rows } 0 s
      else
        printLineFrom { st with buf := writeCell st.buf st.bufferPos col c } (col + 1) s

/-- BootAnimation::printLine (lines 327-342). -/
def printLine (st : Console) (s : List Char) : Console :=
  printLineFrom st 0 s

/-- The copy loop of BootAnimation::replaceLine:
`for (i = 0; i < mCols; i++) { row[i] = s[i]; if (s[i] == '\0') break; }`.
The C string `s` is walked structurally; the `[]` case is the terminator
(`s[i] == '\0'`), which is written and then stops the loop. -/
def replaceGo (b : List (List Char)) (r cols : Nat) : Nat → List Char → List (List Char)
  | i, [] => if i < cols then writeCell b r i nul else b
  | i, c :: rest =>
    if i < cols then
      if c = nul then writeCell b r i c
      else replaceGo (writeCell b r i c) r cols (i + 1) rest
    else b

/-- BootAnimation::replaceLine (lines 344-351): overwrite the row at
`(mRows + mBufferPos - 1) % mRows`; the cursor is not touched. -/
def replaceLine (st : Console) (s : List Char) : Console :=
  { st with buf := replaceGo st.buf ((st.rows + st.bufferPos - 1) % st.rows) st.cols 0 s }

/-- The per-row scan of BootAnimation::drawText (line 360): the characters
rendered are exactly those before the first null terminator. -/
def drawScan (row : List Char) : List Char :=
  row.takeWhile (fun c => c != nul)

/-- A console mutation issued by the log filter or the text loop. -/
inductive ConsoleOp
  | print (s : List Char)
  | replace (s : List Char)
deriving DecidableEq

def applyOp (st : Console) : ConsoleOp → Console
  | .print s => printLine st s
  | .replace s => replaceLine st s

def applyOps (st : Console) (ops : List ConsoleOp) : Console :=
  ops.foldl applyOp st

/-! ## Log entries and the multiplexer / filter of BootAnimation::processLog
(lines 453-562). -/

/-- A decoded log entry: the `sec` / `nsec` timestamp of `struct logger_entry`
together with the fields produced by `android_log_processLogBuffer` (priority,
tag, message).  Decoding raw buffers is an external collaborator; the slot is
modelled as already decoded. -/
structure LogEntry where
  sec : Nat
  nsec : Nat
  priority : Int
  tag : List Char
  message : List Char
deriving DecidableEq

/-- Lexicographic order on the `(sec, nsec)` timestamp pair. -/
def tsLe (a b : LogEntry) : Prop :=
  a.sec < b.sec ∨ (a.sec = b.sec ∧ a.nsec ≤ b.nsec)

instance (a b : LogEntry) : Decidable (tsLe a b) := by
  unfold tsLe; infer_instance

/-- Result of one non-blocking `read` on a log device: a decoded entry, an
`EAGAIN` (no data available this poll), or a hard failure (`ret < 0` with a
real errno, or the `ret == 0` EOF) which makes processLog return false. -/
inductive RdRes
  | ent (e : LogEntry)
  | again
  | err
deriving DecidableEq

/-- One log device as processLog sees it: the one-entry slot `entries[i]`
(empty when `entry.len == 0`) paired with the pending read results of the
device.  An exhausted result list behaves as a device with no data (EAGAIN). -/
abbrev LogDev := Option LogEntry × List RdRes

/-- The per-device body of the read loop (lines 467-490): a filled slot is
left alone (`continue`); an empty slot issues one read, where EAGAIN leaves
the slot empty and a hard error / EOF aborts the whole call (`none`). -/
def readDev : LogDev → Option LogDev
  | (some e, strm) => some (some e, strm)
  | (none, []) => some (none, [])
  | (none, RdRes.ent e :: rest) => some (some e, rest)
  | (none, RdRes.again :: rest) => some (none, rest)
  | (none, RdRes.err :: _) => none

/-- The read loop over all devices. -/
def readPhase : List LogDev → Option (List LogDev)
  | [] => some []
  | d :: ds =>
    match readDev d, readPhase ds with
    | some d1, some ds1 => some (d1 :: ds1)
    | _, _ => none

/-- The selection loop of processLog (lines 491-507): scan the slots in device
order; take the first filled slot as candidate and replace the candidate
whenever its timestamp is strictly greater than the slot under inspection. -/
def selectNextAux : Nat → Option (Nat × LogEntry) → List (Option LogEntry) →
    Option (Nat × LogEntry)
  | _, best, [] => best
  | i, best, none :: rest => selectNextAux (i + 1) best rest
  | i, best, some e :: rest =>
    match best with
    | none => selectNextAux (i + 1) (some (i, e)) rest
    | some (j, b) =>
      if b.sec > e.sec ∨ (b.sec = e.sec ∧ b.nsec > e.nsec) then
        selectNextAux (i + 1) (some (i, e)) rest
      else
        selectNextAux (i + 1) (some (j, b)) rest

def selectNext (slots : List (Option LogEntry)) : Option (Nat × LogEntry) :=
  selectNextAux 0 none slots

/-- Clearing the selected slot (`nextEntry->len = 0`, executed at the top of
the following loop pass). -/
def clearSlot (devs : List LogDev) (j : Nat) : List LogDev :=
  match devs.get? j with
  | some d => devs.set j (none, d.2)
  | none => devs

def ANDROID_LOG_FATAL : Int := 7
def ANDROID_LOG_SILENT : Int := 8

/-- `snprintf(retstr, linelen + 1, "%s: %s", tag, message)`; `linelen` leaves
room for the whole formatted line, so no truncation occurs. -/
def fmtEntry (e : LogEntry) : List Char :=
  e.tag ++ (':' :: ' ' :: []) ++ e.message

/-- Boolean test that `p` is an initial segment of `s` — the shape of every
`!strncmp(s, lit, n)` test in the filter, with `p` the first `n` characters
of the literal. -/
def listPfx : List Char → List Char → Bool
  | [], _ => true
  | _ :: _, [] => false
  | a :: as, b :: bs => a == b && listPfx as bs

/-- First 30 characters of `">>>>>>>>>>>>>> AndroidRuntime START <<<<<<<<<<<<<<"`:
the boot-loop marker test is `strncmp` with length 30. -/
def markerPfx : List Char := ">>>>>>>>>>>>>> AndroidRuntime ".data

/-- The per-entry filter of processLog (lines 517-555).  Returns the console
operations issued for the entry (in program order) and the increment applied
to `nStartups`.  When `mDisplayPriority != ANDROID_LOG_FATAL` an entry is
printed exactly when its priority is not below the threshold; at the sentinel
the fixed-tag rules run instead.  The `strncmp` lengths of the source make the
effective literals `"insta"`, `"DexInv: --- BEG"` and `"Unpacking nati"`. -/
def filterOps (prio : Int) (e : LogEntry) : List ConsoleOp × Nat :=
  if prio ≠ ANDROID_LOG_FATAL then
    if e.priority < prio then ([], 0)
    else ([ConsoleOp.print (fmtEntry e)], 0)
  else
    let o1 : List ConsoleOp :=
      if listPfx "SystemServer".data e.tag then [ConsoleOp.print (fmtEntry e)] else []
    let o2 : List ConsoleOp :=
      if listPfx "insta".data e.tag && listPfx "DexInv: --- BEG".data e.message then
        [ConsoleOp.print (fmtEntry e)]
      else []
    let o3 : List ConsoleOp :=
      if listPfx "PackageManager".data e.tag && listPfx "Unpacking nati".data e.message then
        [ConsoleOp.replace e.message]
      else []
    let inc : Nat :=
      if listPfx "AndroidRuntime".data e.tag && listPfx markerPfx e.message then 1 else 0
    let o4 : List ConsoleOp :=
      if listPfx "AndroidRuntime".data e.tag then [ConsoleOp.print (fmtEntry e)] else []
    (o1 ++ o2 ++ o3 ++ o4, inc)

/-- Result of one processLog call: `ok` is the normal exit (no filled slot
left), carrying the sequence of delivered entries, the console operations, the
final device state, console, `nStartups` and the returned `linesAdded`;
`fail` is any of the early `return false` paths; `out` marks exhausted fuel
(the source loop has no such case — theorems quantify over completed runs). -/
inductive PLRes
  | ok (trace : List LogEntry) (ops : List ConsoleOp) (devs : List LogDev)
      (con : Console) (ns : Nat) (added : Bool)
  | fail
  | out
deriving DecidableEq

/-- The `while (true)` merge loop of processLog: read every empty slot, pick
the slot with the smallest `(sec, nsec)`, run the filter on it, clear it, and
repeat; when no slot is filled, return `linesAdded`. -/
def plRun (prio : Int) : Nat → List LogDev → Console → Nat → Bool → PLRes
  | 0, _, _, _, _ => PLRes.out
  | fuel + 1, devs, con, ns, added =>
    match readPhase devs with
    | none => PLRes.fail
    | some devs1 =>
      match selectNext (devs1.map Prod.fst) with
      | none => PLRes.ok [] [] devs1 con ns added
      | some (j, e) =>
        match plRun prio fuel (clearSlot devs1 j) (applyOps con (filterOps prio e).1)
            (ns + (filterOps prio e).2) (added || !(filterOps prio e).1.isEmpty) with
        | PLRes.ok tr ops ds c n a =>
          PLRes.ok (e :: tr) ((filterOps prio e).1 ++ ops) ds c n a
        | PLRes.fail => PLRes.fail
        | PLRes.out => PLRes.out

/-- BootAnimation::processLog: the slots (`entries`, a local) start empty on
every call. -/
def processLog (prio : Int) (fuel : Nat) (streams : List (List RdRes))
    (con : Console) (ns : Nat) : PLRes :=
  plRun prio fuel (streams.map fun l => ((none : Option LogEntry), l)) con ns false

/-! ## InputWatcher: initInput (lines 389-428) and checkInput (430-451). -/

def KEY_VOLUMEUP : Nat := 115
def KEY_VOLUMEDOWN : Nat := 114
def EV_KEY : Nat := 1

/-- `KEY_IN_BITMASK(x, y) = x[y / 8] & (1 << y % 8)`, on the byte array the
EVIOCGBIT ioctl filled in. -/
def keyInBitmask (bm : List Nat) (y : Nat) : Bool :=
  Nat.testBit (bm.getD (y / 8) 0) (y % 8)

/-- One candidate `/dev/input/` directory entry: its name, the result of
`openat` (negative = failure), whether the EVIOCGBIT ioctl succeeded, and the
key bitmap it produced. -/
structure InputDev where
  name : List Char
  openFd : Int
  ioctlOk : Bool
  bitmask : List Nat
deriving DecidableEq

/-- The readdir loop of initInput.  `cur` is the current value of
`mInputDevice`; note which failure paths overwrite it (open failure keeps the
failed fd, an ioctl failure keeps the closed fd, the missing-key path resets
it to 0) — exactly as in the source.  A device whose bitmap has the volume-up
OR the volume-down bit is taken. -/
def initInputLoop (cur : Int) : List InputDev → Bool × Int
  | [] => (false, cur)
  | d :: rest =>
    if !(listPfx "event".data d.name) then initInputLoop cur rest
    else if d.openFd < 0 then initInputLoop d.openFd rest
    else if !d.ioctlOk then initInputLoop d.openFd rest
    else if keyInBitmask d.bitmask KEY_VOLUMEUP || keyInBitmask d.bitmask KEY_VOLUMEDOWN then
      (true, d.openFd)
    else initInputLoop 0 rest

/-- BootAnimation::initInput: returns (found, mInputDevice).  `dirOk` models
`opendir("/dev/input/")`; on failure `mInputDevice = 0`. -/
def initInput (dirOk : Bool) (cur : Int) (devs : List InputDev) : Bool × Int :=
  if dirOk then initInputLoop cur devs else (false, 0)

/-- One input event record as read from the device. -/
structure InputEvent where
  evType : Nat
  code : Nat
  value : Nat
deriving DecidableEq

/-- BootAnimation::checkInput.  `rd` is the result of the non-blocking read
(`none` when it returned 0 or negative).  The guard is `mInputDevice < 0` —
fd 0 passes it.  The event test is the source's `buf[0].type | EV_KEY &&
buf[0].value == 1`, i.e. `(type | EV_KEY) != 0 && value == 1` by C precedence.
Returns (return value, new mDisplayPriority, new mSwitching). -/
def checkInput (fd : Int) (rd : Option InputEvent) (prio : Int) (switching : Bool) :
    Bool × Int × Bool :=
  if fd < 0 then (false, prio, switching)
  else
    match rd with
    | none => (false, prio, switching)
    | some ev =>
      if (ev.evType ||| EV_KEY) ≠ 0 ∧ ev.value = 1 then
        if ev.code = KEY_VOLUMEUP then (true, prio - 1, true)
        else if ev.code = KEY_VOLUMEDOWN then (true, prio + 1, true)
        else (false, prio, switching)
      else (false, prio, switching)

/-! ## The text-mode loop body of BootAnimation::text (lines 652-679). -/

/-- The three banner lines printed when `nStartups > 1`. -/
def bannerOps : List ConsoleOp :=
  [ConsoleOp.print "!!!!!!!!!!!!!!!!!!!!!!!!".data,
   ConsoleOp.print "!! Boot loop detected !!".data,
   ConsoleOp.print "!!!!!!!!!!!!!!!!!!!!!!!!".data]

/-- State carried across iterations of the text loop.  The processLog slots
are locals of processLog, so only the devices' remaining read results
persist. -/
structure TickState where
  inputFd : Int
  displayPriority : Int
  switching : Bool
  console : Console
  nStartups : Nat
  streams : List (List RdRes)
deriving DecidableEq

inductive TickRes
  | tick (st : TickState) (ops : List ConsoleOp) (shouldDraw : Bool)
  | fail
  | out
deriving DecidableEq

/-- One iteration of the do-while loop of BootAnimation::text: checkInput,
then — if `nStartups > 1` — the three banner printLine calls, then the draw
(render only, no engine state), then `shouldDraw = processLog()`.  `ops` is
the sequence of console operations the iteration performed. -/
def textTick (fuel : Nat) (rd : Option InputEvent) (st : TickState) : TickRes :=
  match processLog (checkInput st.inputFd rd st.displayPriority st.switching).2.1 fuel
      st.streams
      (applyOps st.console (if st.nStartups > 1 then bannerOps else []))
      st.nStartups with
  | PLRes.ok _ ops devs c n added =>
    TickRes.tick
      { inputFd := st.inputFd,
        displayPriority := (checkInput st.inputFd rd st.displayPriority st.switching).2.1,
        switching := (checkInput st.inputFd rd st.displayPriority st.switching).2.2,
        console := c, nStartups := n, streams := devs.map Prod.snd }
      ((if st.nStartups > 1 then bannerOps else []) ++ ops) added
  | PLRes.fail => TickRes.fail
  | PLRes.out => TickRes.out

/-! ## Description parsing in BootAnimation::movie (lines 712-734). -/

def isDigitC (c : Char) : Bool := '0' ≤ c && c ≤ '9'

/-- The `isspace` set used by `sscanf` whitespace skipping. -/
def isSpaceC (c : Char) : Bool :=
  c == ' ' || c == '\t' || c == '\n' || c == '\r' || c == '\x0b' || c == '\x0c'

def digitsToNat (ds : List Char) : Nat :=
  ds.foldl (fun n c => n * 10 + (c.toNat - 48)) 0

/-- One `%d` conversion: skip whitespace, optional sign, at least one digit;
consumption stops at the first non-digit. -/
def scanInt (s : List Char) : Option (Int × List Char) :=
  let s1 := s.dropWhile isSpaceC
  match s1 with
  | '-' :: rest =>
    let ds := rest.takeWhile isDigitC
    if ds.isEmpty then none else some (-(digitsToNat ds : Int), rest.dropWhile isDigitC)
  | '+' :: rest =>
    let ds := rest.takeWhile isDigitC
    if ds.isEmpty then none else some ((digitsToNat ds : Int), rest.dropWhile isDigitC)
  | _ =>
    let ds := s1.takeWhile isDigitC
    if ds.isEmpty then none else some ((digitsToNat ds : Int), s1.dropWhile isDigitC)

/-- One `%s` conversion: skip whitespace, read a non-empty run of non-space
characters. -/
def scanStr (s : List Char) : Option (List Char × List Char) :=
  let s1 := s.dropWhile isSpaceC
  let tok := s1.takeWhile (fun c => !(isSpaceC c))
  if tok.isEmpty then none
  else some (tok, s1.dropWhile (fun c => !(isSpaceC c)))

/-- `sscanf(l, "%d %d %d", &width, &height, &fps) == 3` (line 719). -/
def scanSizeLine (l : List Char) : Option (Int × Int × Int) :=
  match scanInt l with
  | none => none
  | some (w, r1) =>
    match scanInt r1 with
    | none => none
    | some (h, r2) =>
      match scanInt r2 with
      | none => none
      | some (f, _) => some (w, h, f)

/-- `sscanf(l, "p %d %d %s", &count, &pause, path) == 3` (line 725): the
literal `p` must match the first character exactly. -/
def scanPartLine (l : List Char) : Option (Int × Int × List Char) :=
  match l with
  | 'p' :: rest =>
    match scanInt rest with
    | none => none
    | some (c, r1) =>
      match scanInt r1 with
      | none => none
      | some (p, r2) =>
        match scanStr r2 with
        | none => none
        | some (path, _) => some (c, p, path)
  | _ => none

/-- The line loop (lines 712-734): successive segments before each newline;
text after the last newline is never parsed (the loop breaks when
`strstr(s, "\n")` finds nothing). -/
def splitNl (s : List Char) : List (List Char) :=
  let r := s.foldr
    (fun c (acc : List Char × List (List Char)) =>
      if c = '\n' then ([], acc.1 :: acc.2) else (c :: acc.1, acc.2))
    ([], [])
  (r.1 :: r.2).dropLast

structure AnimPart where
  count : Int
  pause : Int
  path : List Char
deriving DecidableEq

structure Animation where
  width : Int
  height : Int
  fps : Int
  parts : List AnimPart
deriving DecidableEq

/-- Per-line action of the parsing loop: both scans are attempted; a size
match overwrites the header fields, a part match appends a Part. -/
def parseDescLine (a : Animation) (l : List Char) : Animation :=
  let a1 :=
    match scanSizeLine l with
    | some (w, h, f) => { a with width := w, height := h, fps := f }
    | none => a
  match scanPartLine l with
  | some (c, p, path) => { a1 with parts := a1.parts ++ [⟨c, p, path⟩] }
  | none => a1

/-- In the source `animation` is a stack local whose header fields are only
assigned when a size line matches; the model starts them at 0. -/
def emptyAnimation : Animation := { width := 0, height := 0, fps := 0, parts := [] }

def parseDesc (s : List Char) : Animation :=
  (splitNl s).foldl parseDescLine emptyAnimation

/-- One line's effect on the remembered size triple: a match overwrites. -/
def sizeStep (acc : Option (Int × Int × Int)) (l : List Char) : Option (Int × Int × Int) :=
  match scanSizeLine l with
  | some v => some v
  | none => acc

/-- The value the header fields hold after the loop: the last matching size
line, if any. -/
def lastSize (lines : List (List Char)) : Option (Int × Int × Int) :=
  lines.foldl sizeStep none

def partOfLine (l : List Char) : Option AnimPart :=
  (scanPartLine l).map fun t => ⟨t.1, t.2.1, t.2.2⟩

/-! ## Frame pacing of BootAnimation::movie (lines 787-788 and 832-839). -/

def s2ns (n : Int) : Int := n * 1000000000

def ns2us (ns : Int) : Int := ns / 1000

/-- `nsecs_t frameDuration = s2ns(1) / animation.fps` (line 788). -/
def frameDuration (fps : Int) : Int := s2ns 1 / fps

/-- `nsecs_t delay = frameDuration - (now - lastFrame)` (line 833) — computed
by the source and then never used. -/
def movieFrameDelay (fd elapsed : Int) : Int := fd - elapsed

/-- What the source actually sleeps after presenting a frame (lines 835-837):
`long wait = ns2us(frameDuration); if (wait > 0) usleep(wait);` — the elapsed
time since the previous frame does not enter. -/
def movieSleepUs (fd : Int) : Int :=
  if ns2us fd > 0 then ns2us fd else 0

/-- The pacing the specification describes: block for
`max(0, frameInterval - elapsedSinceLastFrame)`.  Modelled from the spec for
comparison with `movieSleepUs`. -/
def claimedSleepNs (fd elapsed : Int) : Int := max 0 (fd - elapsed)

/-! ## General lemmas about the console buffer. -/

/-- Byte `c` of row `r` (out-of-range reads give the zero byte, as the whole
buffer starts zeroed). -/
def cell (b : List (List Char)) (r c : Nat) : Char :=
  (b.getD r []).getD c nul

/-- Well-formedness as established by initBuffer with positive dimensions. -/
def WF (st : Console) : Prop :=
  st.buf.length = st.rows ∧ (∀ row ∈ st.buf, row.length = st.cols + 1) ∧
    st.bufferPos < st.rows ∧ 0 < st.cols

theorem getD_set_ne {α} (l : List α) {i j : Nat} (a : α) (d : α) (h : i ≠ j) :
    (l.set i a).getD j d = l.getD j d := by
  simp [List.getD, List.getElem?_set_ne h]

theorem getD_set_self {α} (l : List α) {i : Nat} (a : α) (d : α) (h : i < l.length) :
    (l.set i a).getD i d = a := by
  simp [List.getD, List.getElem?_set_eq_of_lt a h]

theorem length_writeCell (b : List (List Char)) (r c : Nat) (ch : Char) :
    (writeCell b r c ch).length = b.length := by
  simp [writeCell]

theorem getD_writeCell_ne (b : List (List Char)) {r r' : Nat} (c : Nat) (ch : Char)
    (h : r ≠ r') : (writeCell b r c ch).getD r' [] = b.getD r' [] :=
  getD_set_ne _ _ _ h

theorem getD_writeCell_self (b : List (List Char)) {r : Nat} (c : Nat) (ch : Char)
    (h : r < b.length) : (writeCell b r c ch).getD r [] = (b.getD r []).set c ch :=
  getD_set_self _ _ _ h

theorem cell_writeCell_self (b : List (List Char)) {r c : Nat} (ch : Char)
    (hr : r < b.length) (hc : c < (b.getD r []).length) :
    cell (writeCell b r c ch) r c = ch := by
  unfold cell
  rw [getD_writeCell_self b c ch hr, getD_set_self _ _ _ hc]

theorem cell_writeCell_ne_col (b : List (List Char)) {c c' : Nat} (r r' : Nat) (ch : Char)
    (h : c ≠ c') : cell (writeCell b r c ch) r' c' = cell b r' c' := by
  unfold cell
  by_cases hr : r = r'
  · subst hr
    by_cases hlen : r < b.length
    · rw [getD_writeCell_self b c ch hlen, getD_set_ne _ _ _ h]
    · rw [writeCell, List.set_eq_of_length_le (Nat.le_of_not_lt hlen)]
  · rw [getD_writeCell_ne b c ch hr]

theorem cell_writeCell_ne_row (b : List (List Char)) {r r' : Nat} (c c' : Nat) (ch : Char)
    (h : r ≠ r') : cell (writeCell b r c ch) r' c' = cell b r' c' := by
  unfold cell
  rw [getD_writeCell_ne b c ch h]

theorem length_padCells (b : List (List Char)) (r col cols : Nat) :
    (padCells b r col cols).length = b.length := by
  unfold padCells
  generalize List.range (cols - col) = idx
  induction idx generalizing b with
  | nil => rfl
  | cons i is ih => simpa [length_writeCell] using ih (writeCell b r (col + i) nul)

theorem getD_padCells_ne (b : List (List Char)) {r r' : Nat} (col cols : Nat)
    (h : r ≠ r') : (padCells b r col cols).getD r' [] = b.getD r' [] := by
  unfold padCells
  generalize List.range (cols - col) = idx
  induction idx generalizing b with
  | nil => rfl
  | cons i is ih =>
    rw [List.foldl_cons, ih (writeCell b r (col + i) nul), getD_writeCell_ne _ _ _ h]

theorem rowlen_writeCell (b : List (List Char)) (r c : Nat) (ch : Char) :
    ((writeCell b r c ch).getD r []).length = (b.getD r []).length := by
  by_cases hr : r < b.length
  · rw [getD_writeCell_self b c ch hr, List.length_set]
  · rw [writeCell, List.set_eq_of_length_le (Nat.le_of_not_lt hr)]

theorem padCells_stop (b : List (List Char)) (r col cols : Nat) (h : cols ≤ col) :
    padCells b r col cols = b := by
  unfold padCells
  rw [Nat.sub_eq_zero_of_le h]
  rfl

theorem padCells_step (b : List (List Char)) (r col cols : Nat) (h : col < cols) :
    padCells b r col cols = padCells (writeCell b r col nul) r (col + 1) cols := by
  unfold padCells
  have h1 : cols - col = (cols - (col + 1)) + 1 := by omega
  rw [h1, List.range_succ_eq_map, List.foldl_cons, List.foldl_map]
  have h2 : (fun (bb : List (List Char)) (i : Nat) => writeCell bb r (col + Nat.succ i) nul) =
      fun (bb : List (List Char)) (i : Nat) => writeCell bb r (col + 1 + i) nul := by
    funext bb i
    have : col + Nat.succ i = col + 1 + i := by omega
    rw [this]
  rw [h2]
  rfl

theorem cell_padCells_out (cols : Nat) :
    ∀ k b col r r' c', cols - col = k → (c' < col ∨ cols ≤ c') →
      cell (padCells b r col cols) r' c' = cell b r' c' := by
  intro k
  induction k with
  | zero =>
    intro b col r r' c' hk _
    rw [padCells_stop b r col cols (by omega)]
  | succ k ih =>
    intro b col r r' c' hk hc
    have hcol : col < cols := by omega
    rw [padCells_step b r col cols hcol]
    rw [ih (writeCell b r col nul) (col + 1) r r' c' (by omega) (by omega)]
    exact cell_writeCell_ne_col b r r' nul (by omega)

theorem cell_padCells_in (cols : Nat) :
    ∀ k b col r c', cols - col = k → col ≤ c' → c' < cols → r < b.length →
      cols ≤ (b.getD r []).length →
      cell (padCells b r col cols) r c' = nul := by
  intro k
  induction k with
  | zero =>
    intro b col r c' hk hc1 hc2 _ _
    omega
  | succ k ih =>
    intro b col r c' hk hc1 hc2 hr hlen
    have hcol : col < cols := by omega
    rw [padCells_step b r col cols hcol]
    by_cases hcc : c' = col
    · rw [hcc]
      rw [cell_padCells_out cols (cols - (col + 1)) _ _ _ _ _ rfl (Or.inl (by omega))]
      exact cell_writeCell_self b nul hr (by omega)
    · exact ih (writeCell b r col nul) (col + 1) r c' (by omega) (by omega) hc2
        (by rw [length_writeCell]; exact hr)
        (by rw [rowlen_writeCell]; exact hlen)

theorem printLineFrom_fields :
    ∀ (s : List Char) (st : Console) (col : Nat),
      (printLineFrom st col s).rows = st.rows ∧ (printLineFrom st col s).cols = st.cols := by
  intro s
  induction s with
  | nil => intro st col; exact ⟨rfl, rfl⟩
  | cons c s ih =>
    intro st col
    simp only [printLineFrom]
    by_cases hc : c = nul
    · rw [if_pos hc]; exact ⟨rfl, rfl⟩
    · rw [if_neg hc]
      by_cases hw : col + 1 ≥ st.cols
      · rw [if_pos hw]; exact ih _ 0
      · rw [if_neg hw]; exact ih _ (col + 1)

theorem printLineFrom_bufferPos :
    ∀ (s : List Char) (st : Console) (col : Nat), nul ∉ s → col < st.cols →
      (printLineFrom st col s).bufferPos =
        (st.bufferPos + (col + s.length) / st.cols + 1) % st.rows := by
  intro s
  induction s with
  | nil =>
    intro st col _ hcol
    simp only [printLineFrom, List.length_nil, Nat.add_zero]
    rw [Nat.div_eq_of_lt hcol]
  | cons c s ih =>
    intro st col hnul hcol
    have hc : ¬ (c = nul) := fun h => hnul (h ▸ List.mem_cons_self c s)
    have hnul' : nul ∉ s := fun h => hnul (List.mem_cons_of_mem c h)
    simp only [printLineFrom]
    rw [if_neg hc]
    by_cases hw : col + 1 ≥ st.cols
    · rw [if_pos hw]
      have hdiv : (col + (s.length + 1)) / st.cols = s.length / st.cols + 1 := by
        have h30 : col + (s.length + 1) = s.length + st.cols := by omega
        rw [h30, Nat.add_div_right _ (by omega)]
      rw [ih _ 0 hnul' (by show 0 < st.cols; omega)]
      simp only [Nat.zero_add, List.length_cons]
      rw [hdiv, Nat.add_assoc, Nat.mod_add_mod]
      congr 1
      omega
    · rw [if_neg hw]
      rw [ih _ (col + 1) hnul' (by show col + 1 < st.cols; omega)]
      simp only [List.length_cons]
      have h31 : col + 1 + s.length = col + (s.length + 1) := by omega
      rw [h31]

theorem printLineFrom_content :
    ∀ (s : List Char) (st : Console) (col : Nat), nul ∉ s →
      st.bufferPos < st.buf.length →
      st.cols ≤ (st.buf.getD st.bufferPos []).length →
      col + s.length < st.cols →
      (∀ r', r' ≠ st.bufferPos →
        (printLineFrom st col s).buf.getD r' [] = st.buf.getD r' []) ∧
      (∀ j, j < col →
        cell (printLineFrom st col s).buf st.bufferPos j = cell st.buf st.bufferPos j) ∧
      (∀ j, col ≤ j → j < col + s.length →
        cell (printLineFrom st col s).buf st.bufferPos j = s.getD (j - col) nul) ∧
      (∀ j, col + s.length ≤ j → j < st.cols →
        cell (printLineFrom st col s).buf st.bufferPos j = nul) := by
  intro s
  induction s with
  | nil =>
    intro st col _ hpos hlen hfit
    simp only [printLineFrom]
    refine ⟨?_, ?_, ?_, ?_⟩
    · intro r' hr'
      exact getD_padCells_ne st.buf col st.cols (fun h => hr' h.symm)
    · intro j hj
      exact cell_padCells_out st.cols (st.cols - col) _ _ _ _ _ rfl (Or.inl hj)
    · intro j hj1 hj2
      simp only [List.length_nil] at hj2
      omega
    · intro j hj1 hj2
      exact cell_padCells_in st.cols (st.cols - col) _ _ _ _ rfl (by omega) hj2 hpos hlen
  | cons c s ih =>
    intro st col hnul hpos hlen hfit
    have hc : ¬ (c = nul) := fun h => hnul (h ▸ List.mem_cons_self c s)
    have hnul' : nul ∉ s := fun h => hnul (List.mem_cons_of_mem c h)
    have hw : ¬ (col + 1 ≥ st.cols) := by
      simp only [List.length_cons] at hfit
      omega
    simp only [printLineFrom]
    rw [if_neg hc, if_neg hw]
    obtain ⟨iha, ihb, ihc, ihd⟩ :=
      ih { st with buf := writeCell st.buf st.bufferPos col c } (col + 1) hnul'
        (by show st.bufferPos < (writeCell st.buf st.bufferPos col c).length
            rw [length_writeCell]; exact hpos)
        (by show st.cols ≤ ((writeCell st.buf st.bufferPos col c).getD st.bufferPos []).length
            rw [rowlen_writeCell]; exact hlen)
        (by show col + 1 + s.length < st.cols
            simp only [List.length_cons] at hfit
            omega)
    refine ⟨?_, ?_, ?_, ?_⟩
    · intro r' hr'
      rw [iha r' hr']
      exact getD_writeCell_ne st.buf col c (fun h => hr' h.symm)
    · intro j hj
      rw [ihb j (by omega)]
      exact cell_writeCell_ne_col st.buf st.bufferPos st.bufferPos c (by omega)
    · intro j hj1 hj2
      simp only [List.length_cons] at hj2
      by_cases hjc : j = col
      · subst hjc
        rw [ihb j (by omega)]
        have : cell (writeCell st.buf st.bufferPos j c) st.bufferPos j = c :=
          cell_writeCell_self st.buf c hpos (by omega)
        rw [this, Nat.sub_self, List.getD_cons_zero]
      · have hj3 : col + 1 ≤ j := by omega
        rw [ihc j hj3 (by omega)]
        have h40 : j - col = (j - (col + 1)) + 1 := by omega
        rw [h40, List.getD_cons_succ]
    · intro j hj1 hj2
      simp only [List.length_cons] at hj1
      exact ihd j (by omega) hj2

theorem mem_getD {α} (l : List α) (n : Nat) (d : α) (h : n < l.length) :
    l.getD n d ∈ l := by
  simp [List.getD, List.getElem?_eq_getElem h, List.getElem_mem]

theorem getD_replicate {α} (n : Nat) (a d : α) (i : Nat) :
    (List.replicate n a).getD i d = if i < n then a else d := by
  split <;> rename_i h <;> simp [List.getD, List.getElem?_replicate, h]

theorem replaceGo_spec :
    ∀ (s : List Char) (b : List (List Char)) (r cols i : Nat), nul ∉ s →
      r < b.length → cols ≤ (b.getD r []).length →
      (replaceGo b r cols i s).length = b.length ∧
      (∀ r', r' ≠ r → (replaceGo b r cols i s).getD r' [] = b.getD r' []) ∧
      (∀ j, i ≤ j → j < min (i + s.length + 1) cols →
        cell (replaceGo b r cols i s) r j = s.getD (j - i) nul) ∧
      (∀ j, j < i ∨ min (i + s.length + 1) cols ≤ j →
        cell (replaceGo b r cols i s) r j = cell b r j) := by
  intro s
  induction s with
  | nil =>
    intro b r cols i _ hr hlen
    simp only [replaceGo, List.length_nil]
    by_cases hi : i < cols
    · rw [if_pos hi]
      refine ⟨length_writeCell _ _ _ _, ?_, ?_, ?_⟩
      · intro r' hr'
        exact getD_writeCell_ne b i nul (fun h => hr' h.symm)
      · intro j hj1 hj2
        have hji : j = i := by omega
        subst hji
        rw [List.getD_nil, cell_writeCell_self b nul hr (by omega)]
      · intro j hj
        have hji : j ≠ i := by omega
        exact cell_writeCell_ne_col b r r nul (fun h => hji h.symm)
    · rw [if_neg hi]
      refine ⟨rfl, fun _ _ => rfl, ?_, fun _ _ => rfl⟩
      intro j hj1 hj2
      omega
  | cons c s ih =>
    intro b r cols i hnul hr hlen
    have hc : ¬ (c = nul) := fun h => hnul (h ▸ List.mem_cons_self c s)
    have hnul' : nul ∉ s := fun h => hnul (List.mem_cons_of_mem c h)
    simp only [replaceGo, List.length_cons]
    by_cases hi : i < cols
    · rw [if_pos hi, if_neg hc]
      obtain ⟨ilen, irow, ic, id⟩ := ih (writeCell b r i c) r cols (i + 1) hnul'
        (by rw [length_writeCell]; exact hr)
        (by rw [rowlen_writeCell]; exact hlen)
      refine ⟨?_, ?_, ?_, ?_⟩
      · rw [ilen, length_writeCell]
      · intro r' hr'
        rw [irow r' hr']
        exact getD_writeCell_ne b i c (fun h => hr' h.symm)
      · intro j hj1 hj2
        by_cases hji : j = i
        · subst hji
          rw [id j (Or.inl (by omega))]
          rw [cell_writeCell_self b c hr (by omega)]
          rw [Nat.sub_self, List.getD_cons_zero]
        · have hj3 : i + 1 ≤ j := by omega
          have hj4 : j < min (i + 1 + s.length + 1) cols := by omega
          rw [ic j hj3 hj4]
          have h40 : j - i = (j - (i + 1)) + 1 := by omega
          rw [h40, List.getD_cons_succ]
      · intro j hj
        have hj5 : j < i + 1 ∨ min (i + 1 + s.length + 1) cols ≤ j := by omega
        have hji : j ≠ i := by omega
        rw [id j hj5]
        exact cell_writeCell_ne_col b r r c (fun h => hji h.symm)
    · rw [if_neg hi]
      refine ⟨rfl, fun _ _ => rfl, ?_, fun _ _ => rfl⟩
      intro j hj1 hj2
      omega

theorem printLineFrom_keeps_nulcol :
    ∀ (s : List Char) (st : Console) (col : Nat), col < st.cols →
      (∀ r', cell st.buf r' st.cols = nul) →
      ∀ r', cell (printLineFrom st col s).buf r' st.cols = nul := by
  intro s
  induction s with
  | nil =>
    intro st col hcol hq r'
    simp only [printLineFrom]
    rw [cell_padCells_out st.cols (st.cols - col) _ _ _ _ _ rfl (Or.inr (Nat.le_refl _))]
    exact hq r'
  | cons c s ih =>
    intro st col hcol hq r'
    simp only [printLineFrom]
    by_cases hc : c = nul
    · rw [if_pos hc]
      rw [cell_padCells_out st.cols (st.cols - col) _ _ _ _ _ rfl (Or.inr (Nat.le_refl _))]
      exact hq r'
    · rw [if_neg hc]
      have hq1 : ∀ r'', cell (writeCell st.buf st.bufferPos col c) r'' st.cols = nul := by
        intro r''
        rw [cell_writeCell_ne_col st.buf st.bufferPos r'' c (by omega)]
        exact hq r''
      by_cases hw : col + 1 ≥ st.cols
      · rw [if_pos hw]
        exact ih _ 0 (by show 0 < st.cols; omega) hq1 r'
      · rw [if_neg hw]
        exact ih _ (col + 1) (by show col + 1 < st.cols; omega) hq1 r'

theorem replaceGo_keeps_nulcol :
    ∀ (s : List Char) (b : List (List Char)) (r cols i : Nat),
      (∀ r', cell b r' cols = nul) →
      ∀ r', cell (replaceGo b r cols i s) r' cols = nul := by
  intro s
  induction s with
  | nil =>
    intro b r cols i hq r'
    simp only [replaceGo]
    by_cases hi : i < cols
    · rw [if_pos hi, cell_writeCell_ne_col b r r' nul (by omega)]
      exact hq r'
    · rw [if_neg hi]
      exact hq r'
  | cons c s ih =>
    intro b r cols i hq r'
    simp only [replaceGo]
    by_cases hi : i < cols
    · rw [if_pos hi]
      by_cases hc : c = nul
      · rw [if_pos hc, cell_writeCell_ne_col b r r' c (by omega)]
        exact hq r'
      · rw [if_neg hc]
        refine ih (writeCell b r i c) r cols (i + 1) ?_ r'
        intro r''
        rw [cell_writeCell_ne_col b r r'' c (by omega)]
        exact hq r''
    · rw [if_neg hi]
      exact hq r'

theorem applyOp_fields (st : Console) (op : ConsoleOp) :
    (applyOp st op).cols = st.cols ∧ (applyOp st op).rows = st.rows := by
  cases op with
  | print s =>
    exact ⟨(printLineFrom_fields s st 0).2, (printLineFrom_fields s st 0).1⟩
  | replace s => exact ⟨rfl, rfl⟩

theorem applyOps_nulcol :
    ∀ (ops : List ConsoleOp) (st : Console), 0 < st.cols →
      (∀ r', cell st.buf r' st.cols = nul) →
      (applyOps st ops).cols = st.cols ∧
      ∀ r', cell (applyOps st ops).buf r' st.cols = nul := by
  intro ops
  induction ops with
  | nil => intro st _ hq; exact ⟨rfl, hq⟩
  | cons op ops ih =>
    intro st hc hq
    have hfields := applyOp_fields st op
    have hq1 : ∀ r', cell (applyOp st op).buf r' (applyOp st op).cols = nul := by
      rw [hfields.1]
      cases op with
      | print s => exact printLineFrom_keeps_nulcol s st 0 hc (fun r' => hq r')
      | replace s =>
        exact replaceGo_keeps_nulcol s st.buf ((st.rows + st.bufferPos - 1) % st.rows)
          st.cols 0 (fun r' => hq r')
    have := ih (applyOp st op) (by rw [hfields.1]; exact hc) hq1
    refine ⟨?_, ?_⟩
    · show (applyOps (applyOp st op) ops).cols = st.cols
      rw [this.1, hfields.1]
    · intro r'
      show cell (applyOps (applyOp st op) ops).buf r' st.cols = nul
      have h2 := this.2 r'
      rw [hfields.1] at h2
      exact h2

theorem length_takeWhile_le_of_getD (p : Char → Bool) :
    ∀ (l : List Char) (n : Nat), p (l.getD n nul) = false →
      (l.takeWhile p).length ≤ n := by
  intro l
  induction l with
  | nil =>
    intro n _
    simp [List.takeWhile]
  | cons x xs ih =>
    intro n hp
    cases n with
    | zero =>
      rw [List.getD_cons_zero] at hp
      simp [List.takeWhile, hp]
    | succ m =>
      rw [List.getD_cons_succ] at hp
      by_cases hx : p x
      · simp only [List.takeWhile, hx, List.length_cons]
        exact Nat.succ_le_succ (ih m hp)
      · have hx' : p x = false := by revert hx; cases p x <;> simp
        simp [List.takeWhile, hx']

/-! ## Claim theorems about the console (C2, C8, C10). -/

/-- Claim C2, counterexample: with `rows = 3`, `cols = 2`, printLine of the
three-character text `abc` advances `mBufferPos` by two (to 2, not `(0+1) % 3
= 1`) and modifies row 1 in addition to row 0 — the text wraps instead of
being truncated, so a single call does not modify exactly one row and does
not advance the cursor by exactly one. -/
theorem c2_counterexample :
    (printLine (initBuffer 3 2) ('a' :: 'b' :: 'c' :: [])).bufferPos = 2 ∧
    (2 : Nat) ≠ (0 + 1) % 3 ∧
    (printLine (initBuffer 3 2) ('a' :: 'b' :: 'c' :: [])).buf.getD 1 [] ≠
      (initBuffer 3 2).buf.getD 1 [] := by
  decide

/-- Claim C2, amended: printLine wraps long text instead of truncating it.
For a null-free text, the cursor advances by `len / cols + 1` (mod rows)
rather than always by one; when the text is shorter than `cols` the call
modifies only the row at `writePos` — copying the text and null-padding the
remainder of the row up to column `cols` — and advances the cursor by
exactly one. -/
theorem c2_append_line_amended (st : Console) (s : List Char)
    (hwf : WF st) (hnul : nul ∉ s) :
    (printLine st s).bufferPos = (st.bufferPos + s.length / st.cols + 1) % st.rows ∧
    (s.length < st.cols →
      (∀ r', r' ≠ st.bufferPos → (printLine st s).buf.getD r' [] = st.buf.getD r' []) ∧
      (∀ j, j < s.length → cell (printLine st s).buf st.bufferPos j = s.getD j nul) ∧
      (∀ j, s.length ≤ j → j < st.cols →
        cell (printLine st s).buf st.bufferPos j = nul)) := by
  obtain ⟨hlen, hrow, hpos, hcols⟩ := hwf
  constructor
  · have h := printLineFrom_bufferPos s st 0 hnul hcols
    simpa using h
  · intro hshort
    have hfit : 0 + s.length < st.cols := by omega
    have hrowlen : st.cols ≤ (st.buf.getD st.bufferPos []).length := by
      have hm : st.buf.getD st.bufferPos [] ∈ st.buf := mem_getD _ _ _ (by omega)
      rw [hrow _ hm]
      omega
    obtain ⟨ha, hb, hc, hd⟩ := printLineFrom_content s st 0 hnul (by omega) hrowlen hfit
    refine ⟨fun r' hr' => ha r' hr', fun j hj => ?_, fun j hj1 hj2 => hd j (by omega) hj2⟩
    have h := hc j (Nat.zero_le j) (by omega)
    simpa using h

/-- Witness for the amended C2 theorem at `rows = 2`, `cols = 4`, text `ab`. -/
theorem c2_witness :
    (printLine (initBuffer 2 4) ('a' :: 'b' :: [])).bufferPos =
      ((initBuffer 2 4).bufferPos +
        ('a' :: 'b' :: []).length / (initBuffer 2 4).cols + 1) % (initBuffer 2 4).rows :=
  (c2_append_line_amended (initBuffer 2 4) ('a' :: 'b' :: [])
    (by constructor; · decide
        constructor; · decide
        decide)
    (by decide)).1

/-- Claim C8, counterexample: replaceLine does not null-pad the remainder of
the row.  After appending `ABC` (console 2 x 4) and replacing the last line
with `X`, byte 2 of the overwritten row still holds `C`, where the
append-line padding rule would have written a null. -/
theorem c8_counterexample :
    cell (replaceLine (printLine (initBuffer 2 4) ('A' :: 'B' :: 'C' :: []))
        ('X' :: [])).buf 0 2 = 'C' ∧
    ('C' ≠ nul) := by
  decide

/-- Claim C8, amended: replaceLine overwrites only the row at
`(writePos - 1 + rows) mod rows`, copying the text truncated to `cols` plus —
when the text is shorter than `cols` — its terminating null, and leaves the
rest of that row, every other row, the cursor and the row count unchanged. -/
theorem c8_replace_line_amended (st : Console) (s : List Char)
    (hwf : WF st) (hnul : nul ∉ s) :
    (replaceLine st s).bufferPos = st.bufferPos ∧
    (replaceLine st s).buf.length = st.buf.length ∧
    (∀ r', r' ≠ (st.rows + st.bufferPos - 1) % st.rows →
      (replaceLine st s).buf.getD r' [] = st.buf.getD r' []) ∧
    (∀ j, j < min (s.length + 1) st.cols →
      cell (replaceLine st s).buf ((st.rows + st.bufferPos - 1) % st.rows) j =
        s.getD j nul) ∧
    (∀ j, min (s.length + 1) st.cols ≤ j →
      cell (replaceLine st s).buf ((st.rows + st.bufferPos - 1) % st.rows) j =
        cell st.buf ((st.rows + st.bufferPos - 1) % st.rows) j) := by
  obtain ⟨hlen, hrow, hpos, hcols⟩ := hwf
  have htgt : (st.rows + st.bufferPos - 1) % st.rows < st.buf.length := by
    rw [hlen]
    exact Nat.mod_lt _ (by omega)
  have hrowlen : st.cols ≤ (st.buf.getD ((st.rows + st.bufferPos - 1) % st.rows) []).length := by
    have hm : st.buf.getD ((st.rows + st.bufferPos - 1) % st.rows) [] ∈ st.buf :=
      mem_getD _ _ _ htgt
    rw [hrow _ hm]
    omega
  obtain ⟨ha, hb, hc, hd⟩ :=
    replaceGo_spec s st.buf ((st.rows + st.bufferPos - 1) % st.rows) st.cols 0 hnul htgt hrowlen
  refine ⟨rfl, ha, hb, fun j hj => ?_, fun j hj => hd j (Or.inr (by omega))⟩
  have h := hc j (Nat.zero_le j) (by omega)
  simpa using h

/-- Witness for the amended C8 theorem at the counterexample state. -/
theorem c8_witness :
    (replaceLine (printLine (initBuffer 2 4) ('A' :: 'B' :: 'C' :: []))
        ('X' :: [])).bufferPos =
      (printLine (initBuffer 2 4) ('A' :: 'B' :: 'C' :: [])).bufferPos :=
  (c8_replace_line_amended (printLine (initBuffer 2 4) ('A' :: 'B' :: 'C' :: []))
    ('X' :: [])
    (by constructor; · decide
        constructor; · decide
        decide)
    (by decide)).1

/-- Claim C10 (implicit invariant): every reachable console state — initBuffer
followed by any sequence of printLine / replaceLine operations — keeps a null
terminator at byte `cols` of every row (the byte neither function ever
writes), so the per-row character scan of drawText stops after at most `cols`
characters. -/
theorem c10_row_null_terminator (rows cols : Nat) (ops : List ConsoleOp) (r : Nat)
    (hcols : 0 < cols) :
    cell (applyOps (initBuffer rows cols) ops).buf r cols = nul ∧
    (drawScan ((applyOps (initBuffer rows cols) ops).buf.getD r [])).length ≤ cols := by
  have hQ : ∀ r', cell (initBuffer rows cols).buf r' cols = nul := by
    intro r'
    unfold initBuffer cell
    by_cases h : 0 < cols ∧ 0 < rows
    · rw [if_pos h]
      simp only
      rw [getD_replicate]
      by_cases hr : r' < rows
      · rw [if_pos hr, getD_replicate, if_pos (by omega)]
      · rw [if_neg hr, List.getD_nil]
    · rw [if_neg h]
      simp only
      rw [List.getD_nil, List.getD_nil]
  have hinv := applyOps_nulcol ops (initBuffer rows cols)
    (by unfold initBuffer; by_cases h : 0 < cols ∧ 0 < rows
        · rw [if_pos h]; exact hcols
        · rw [if_neg h]; exact hcols)
    (by intro r'
        have h := hQ r'
        unfold initBuffer at h ⊢
        by_cases hh : 0 < cols ∧ 0 < rows
        · rw [if_pos hh] at h ⊢; exact h
        · rw [if_neg hh] at h ⊢; exact h)
  have hcell : cell (applyOps (initBuffer rows cols) ops).buf r cols = nul := by
    have h := hinv.2 r
    have hc2 : (initBuffer rows cols).cols = cols := by
      unfold initBuffer
      by_cases hh : 0 < cols ∧ 0 < rows
      · rw [if_pos hh]
      · rw [if_neg hh]
    rw [hc2] at h
    exact h
  refine ⟨hcell, ?_⟩
  apply length_takeWhile_le_of_getD
  unfold cell at hcell
  rw [hcell]
  simp

/-- Witness for the C10 theorem at `rows = 2`, `cols = 3` after one print and
one replace. -/
theorem c10_witness :
    cell (applyOps (initBuffer 2 3)
        [ConsoleOp.print ('h' :: 'i' :: []), ConsoleOp.replace ('y' :: 'o' :: [])]).buf 0 3 =
      nul ∧
    (drawScan ((applyOps (initBuffer 2 3)
        [ConsoleOp.print ('h' :: 'i' :: []), ConsoleOp.replace ('y' :: 'o' :: [])]).buf.getD
          0 [])).length ≤ 3 :=
  c10_row_null_terminator 2 3
    [ConsoleOp.print ('h' :: 'i' :: []), ConsoleOp.replace ('y' :: 'o' :: [])] 0 (by decide)

/-! ## Claim theorem C3: the verbosity threshold of processLog. -/

/-- Claim C3: when `mDisplayPriority` is not the `ANDROID_LOG_FATAL` sentinel,
a processed entry is printed (as `tag: message`) exactly when its priority is
at least the threshold — otherwise nothing at all happens for the entry; when
the threshold equals the sentinel, the fixed-tag rules alone decide, and the
outcome is independent of the entry's priority. -/
theorem c3_verbosity_threshold (prio : Int) (e : LogEntry)
    (h : prio ≠ ANDROID_LOG_FATAL) :
    ((filterOps prio e).1 = [ConsoleOp.print (fmtEntry e)] ↔ prio ≤ e.priority) ∧
    ((filterOps prio e).1 = [] ↔ e.priority < prio) ∧
    (filterOps prio e).2 = 0 ∧
    (∀ p q : Int,
      filterOps ANDROID_LOG_FATAL { e with priority := p } =
        filterOps ANDROID_LOG_FATAL { e with priority := q }) := by
  refine ⟨?_, ?_, ?_, ?_⟩
  · unfold filterOps
    rw [if_pos h]
    by_cases hp : e.priority < prio
    · rw [if_pos hp]
      simp
      omega
    · rw [if_neg hp]
      simp
      omega
  · unfold filterOps
    rw [if_pos h]
    by_cases hp : e.priority < prio
    · rw [if_pos hp]
      simp [hp]
    · rw [if_neg hp]
      simp [hp]
  · unfold filterOps
    rw [if_pos h]
    by_cases hp : e.priority < prio
    · rw [if_pos hp]
    · rw [if_neg hp]
  · intro p q
    simp [filterOps, fmtEntry]

/-- Witness for C3 at threshold 4 with a priority-4 and a priority-3 entry. -/
theorem c3_witness :
    ((filterOps 4 ⟨1, 2, 4, 'T' :: [], 'm' :: []⟩).1 =
      [ConsoleOp.print (fmtEntry ⟨1, 2, 4, 'T' :: [], 'm' :: []⟩)] ↔ (4 : Int) ≤ 4) ∧
    ((filterOps 4 ⟨1, 2, 3, 'T' :: [], 'm' :: []⟩).1 = [] ↔ (3 : Int) < 4) :=
  ⟨(c3_verbosity_threshold 4 ⟨1, 2, 4, 'T' :: [], 'm' :: []⟩ (by decide)).1,
   (c3_verbosity_threshold 4 ⟨1, 2, 3, 'T' :: [], 'm' :: []⟩ (by decide)).2.1⟩

/-! ## Claim theorems C4 and C9: the input watcher. -/

/-- A directory entry initInput accepts: name matching `event*`, open and
ioctl successful, and the bitmap exposing volume-up OR volume-down. -/
def devQualifies (d : InputDev) : Bool :=
  listPfx "event".data d.name && !(decide (d.openFd < 0)) && d.ioctlOk &&
    (keyInBitmask d.bitmask KEY_VOLUMEUP || keyInBitmask d.bitmask KEY_VOLUMEDOWN)

/-- A concrete input device exposing only the volume-up key: byte 14 of the
bitmap is 8, i.e. bit 3 — key 115 (volume-up) — is set and bit 2 — key 114
(volume-down) — is clear. -/
def volUpOnlyDev : InputDev :=
  ⟨"event0".data, 5, true, List.replicate 14 0 ++ [8]⟩

/-- Claim C4, counterexample: initInput selects a device whose key bitmap
exposes only the volume-up key (the source tests the two keys with `||`, not
`&&`), while the claim says a device exposing only one of the two keys is
closed and skipped. -/
theorem c4_counterexample :
    initInput true 0 [volUpOnlyDev] = (true, 5) ∧
    keyInBitmask volUpOnlyDev.bitmask KEY_VOLUMEUP = true ∧
    keyInBitmask volUpOnlyDev.bitmask KEY_VOLUMEDOWN = false := by
  decide

/-- Claim C4, amended: the readdir loop selects the first enumerated `event*`
device that opens, answers the key-bitmap ioctl, and exposes volume-up OR
volume-down (at least one of the two, not necessarily both); all earlier
devices are skipped, and if no device qualifies the discovery reports
failure. -/
theorem c4_device_discovery_amended (cur : Int) (devs : List InputDev) :
    (∀ d, devs.find? devQualifies = some d → initInputLoop cur devs = (true, d.openFd)) ∧
    (devs.find? devQualifies = none → (initInputLoop cur devs).1 = false) := by
  induction devs generalizing cur with
  | nil =>
    refine ⟨fun d h => ?_, fun _ => rfl⟩
    simp [List.find?] at h
  | cons d0 rest ih =>
    constructor
    · intro d h
      by_cases hq : devQualifies d0
      · rw [List.find?_cons_of_pos _ hq] at h
        cases h
        unfold devQualifies at hq
        simp only [Bool.and_eq_true, Bool.or_eq_true, Bool.not_eq_true', decide_eq_false_iff_not]
          at hq
        obtain ⟨⟨⟨hname, hopen⟩, hioctl⟩, hkeys⟩ := hq
        unfold initInputLoop
        rw [if_neg (by simp [hname]), if_neg (by omega), if_neg (by simp [hioctl])]
        rw [if_pos (by simp only [Bool.or_eq_true]; exact hkeys)]
      · rw [List.find?_cons_of_neg _ hq] at h
        have step := (ih cur).1 d h
        unfold devQualifies at hq
        simp only [Bool.and_eq_true, Bool.or_eq_true, Bool.not_eq_true', not_and,
          decide_eq_false_iff_not] at hq
        unfold initInputLoop
        by_cases hname : listPfx "event".data d0.name
        · rw [if_neg (by simp [hname])]
          by_cases hopen : d0.openFd < 0
          · rw [if_pos hopen]
            exact (ih d0.openFd).1 d h
          · rw [if_neg hopen]
            by_cases hioctl : d0.ioctlOk
            · rw [if_neg (by simp [hioctl])]
              rw [if_neg (by
                intro hk
                exact absurd (Bool.or_eq_true _ _ ▸ hk)
                  (by simpa [hname, hopen, hioctl] using hq))]
              exact (ih 0).1 d h
            · rw [if_pos (by simp [hioctl])]
              exact (ih d0.openFd).1 d h
        · rw [if_pos (by simp [hname])]
          exact step
    · intro h
      by_cases hq : devQualifies d0
      · rw [List.find?_cons_of_pos _ hq] at h
        cases h
      · rw [List.find?_cons_of_neg _ hq] at h
        unfold devQualifies at hq
        simp only [Bool.and_eq_true, Bool.or_eq_true, Bool.not_eq_true', not_and,
          decide_eq_false_iff_not] at hq
        unfold initInputLoop
        by_cases hname : listPfx "event".data d0.name
        · rw [if_neg (by simp [hname])]
          by_cases hopen : d0.openFd < 0
          · rw [if_pos hopen]
            exact (ih d0.openFd).2 h
          · rw [if_neg hopen]
            by_cases hioctl : d0.ioctlOk
            · rw [if_neg (by simp [hioctl])]
              rw [if_neg (by
                intro hk
                exact absurd (Bool.or_eq_true _ _ ▸ hk)
                  (by simpa [hname, hopen, hioctl] using hq))]
              exact (ih 0).2 h
            · rw [if_pos (by simp [hioctl])]
              exact (ih d0.openFd).2 h
        · rw [if_pos (by simp [hname])]
          exact (ih cur).2 h

/-- Witness for the amended C4 theorem: the volume-up-only device is the first
qualifying entry and is selected with its fd. -/
theorem c4_witness :
    initInputLoop 0 [⟨"mouse0".data, 3, true, []⟩, volUpOnlyDev] = (true, 5) :=
  (c4_device_discovery_amended 0 [⟨"mouse0".data, 3, true, []⟩, volUpOnlyDev]).1
    volUpOnlyDev (by decide)

/-- Claim C9 (code bug): when discovery fails, initInput leaves
`mInputDevice = 0`, but checkInput's guard is `mInputDevice < 0`, so fd 0
passes it: a readable key event on fd 0 is reported, sets `mSwitching`, and
moves the verbosity threshold — the watcher is not inert.  The sibling checks
(`mLogDevices[i] <= 0` in processLog) show `<= 0` was intended. -/
theorem c9_inert_watcher_bug :
    initInput true 0 [⟨"event0".data, 5, true, []⟩] = (false, 0) ∧
    checkInput 0 (some ⟨1, 115, 1⟩) 8 false = (true, 7, true) ∧
    (true, 7, true) ≠ ((false, 8, false) : Bool × Int × Bool) := by
  decide

/-! ## Claim theorem C5: frame pacing in BootAnimation::movie. -/

/-- Claim C5 (code bug): after presenting a frame the source computes
`delay = frameDuration - (now - lastFrame)` and then ignores it, sleeping
`ns2us(frameDuration)` unconditionally.  At `fps = 30` with a render that
took exactly one frame interval, the claimed sleep `max(0, frameInterval -
elapsed)` is 0 while the code sleeps 33333 microseconds; the code's sleep
does not depend on the elapsed time at all. -/
theorem c5_frame_pacing_bug :
    frameDuration 30 = 33333333 ∧
    movieSleepUs (frameDuration 30) = 33333 ∧
    claimedSleepNs (frameDuration 30) (frameDuration 30) = 0 ∧
    ns2us (claimedSleepNs (frameDuration 30) (frameDuration 30)) ≠
      movieSleepUs (frameDuration 30) ∧
    movieFrameDelay (frameDuration 30) (frameDuration 30) = 0 := by
  decide

/-! ## Claim theorem C7: description parsing in BootAnimation::movie. -/

/-- Claim C7, counterexample: with two size lines the parsed fps is that of
the last matching line (each match overwrites the fields), not the first:
parsing `"1 2 3\n4 5 6\n"` yields fps 6, not 3. -/
theorem c7_counterexample :
    scanSizeLine "1 2 3".data = some (1, 2, 3) ∧
    scanSizeLine "4 5 6".data = some (4, 5, 6) ∧
    (parseDesc "1 2 3\n4 5 6\n".data).fps = 6 ∧
    ((6 : Int) ≠ 3) := by
  decide

theorem parseDescLine_parts (a : Animation) (l : List Char) :
    (parseDescLine a l).parts = a.parts ++ (partOfLine l).toList := by
  unfold parseDescLine partOfLine
  cases hs : scanSizeLine l <;> cases hp : scanPartLine l <;>
    simp [hs, hp]

theorem parseDescLine_size (a : Animation) (l : List Char) :
    ((parseDescLine a l).width, (parseDescLine a l).height, (parseDescLine a l).fps) =
      match scanSizeLine l with
      | some v => v
      | none => (a.width, a.height, a.fps) := by
  unfold parseDescLine
  cases hs : scanSizeLine l <;> cases hp : scanPartLine l <;>
    simp [hs, hp]


theorem sizeStep_foldl_acc :
    ∀ (ls : List (List Char)) (acc : Option (Int × Int × Int)),
      ls.foldl sizeStep acc =
        match ls.foldl sizeStep none with
        | some w => some w
        | none => acc := by
  intro ls
  induction ls with
  | nil => intro acc; rfl
  | cons l ls ih =>
    intro acc
    rw [List.foldl_cons, List.foldl_cons, ih (sizeStep acc l), ih (sizeStep none l)]
    cases hf : ls.foldl sizeStep none
    · unfold sizeStep
      cases hs : scanSizeLine l <;> rfl
    · rfl

theorem foldl_parseDescLine_size :
    ∀ (lines : List (List Char)) (a : Animation),
      ((lines.foldl parseDescLine a).width, (lines.foldl parseDescLine a).height,
        (lines.foldl parseDescLine a).fps) =
      match lastSize lines with
      | some v => v
      | none => (a.width, a.height, a.fps) := by
  intro lines
  induction lines with
  | nil => intro a; rfl
  | cons l ls ih =>
    intro a
    rw [List.foldl_cons, ih (parseDescLine a l), parseDescLine_size a l]
    show _ = match lastSize (l :: ls) with
      | some v => v
      | none => (a.width, a.height, a.fps)
    unfold lastSize
    rw [List.foldl_cons, sizeStep_foldl_acc ls (sizeStep none l)]
    cases hf : ls.foldl sizeStep none
    · unfold sizeStep
      cases hs : scanSizeLine l <;> rfl
    · rfl

theorem foldl_parseDescLine_parts :
    ∀ (lines : List (List Char)) (a : Animation),
      (lines.foldl parseDescLine a).parts = a.parts ++ lines.filterMap partOfLine := by
  intro lines
  induction lines with
  | nil => intro a; simp
  | cons l ls ih =>
    intro a
    rw [List.foldl_cons, ih (parseDescLine a l), parseDescLine_parts a l]
    cases hp : partOfLine l <;> simp [List.filterMap_cons, hp]

/-- Claim C7, amended: each matching size line overwrites the header fields,
so with several such lines the last occurrence wins (not the first); part
lines append Parts in textual order; the concrete text
`"480 800 30\np 1 0 part0\np 0 5 part1\n"` parses to width 480, height 800,
fps 30, and the two parts in order, the second with count 0 and pause 5. -/
theorem c7_desc_parsing_amended :
    (∀ (s : List Char) (w h f : Int), lastSize (splitNl s) = some (w, h, f) →
      (parseDesc s).width = w ∧ (parseDesc s).height = h ∧ (parseDesc s).fps = f) ∧
    (∀ s : List Char, (parseDesc s).parts = (splitNl s).filterMap partOfLine) ∧
    parseDesc "480 800 30\np 1 0 part0\np 0 5 part1\n".data =
      { width := 480, height := 800, fps := 30,
        parts := [⟨1, 0, "part0".data⟩, ⟨0, 5, "part1".data⟩] } := by
  refine ⟨?_, ?_, ?_⟩
  · intro s w h f hls
    have hs := foldl_parseDescLine_size (splitNl s) emptyAnimation
    rw [hls] at hs
    unfold parseDesc
    exact ⟨congrArg Prod.fst hs, congrArg Prod.fst (congrArg Prod.snd hs),
      congrArg Prod.snd (congrArg Prod.snd hs)⟩
  · intro s
    have hp := foldl_parseDescLine_parts (splitNl s) emptyAnimation
    unfold parseDesc
    rw [hp]
    rfl
  · decide

/-- Witness for the amended C7 theorem at a two-size-line text: the last line
decides. -/
theorem c7_witness :
    (parseDesc "1 2 3\n4 5 6\n".data).width = 4 ∧
    (parseDesc "1 2 3\n4 5 6\n".data).height = 5 ∧
    (parseDesc "1 2 3\n4 5 6\n".data).fps = 6 :=
  c7_desc_parsing_amended.1 "1 2 3\n4 5 6\n".data 4 5 6 (by decide)

/-! ## Lemmas for claim C1: the merge loop delivers entries in timestamp
order. -/

theorem tsLe_refl (a : LogEntry) : tsLe a a := by
  unfold tsLe; omega

theorem tsLe_trans {a b c : LogEntry} (h1 : tsLe a b) (h2 : tsLe b c) : tsLe a c := by
  unfold tsLe at *; omega

theorem tsLe_of_not_gt {a b : LogEntry}
    (h : ¬ (a.sec > b.sec ∨ (a.sec = b.sec ∧ a.nsec > b.nsec))) : tsLe a b := by
  unfold tsLe; omega

theorem tsLe_of_gt {a b : LogEntry}
    (h : b.sec > a.sec ∨ (b.sec = a.sec ∧ b.nsec > a.nsec)) : tsLe a b := by
  unfold tsLe; omega

theorem selectNextAux_min :
    ∀ (slots : List (Option LogEntry)) (i : Nat) (best : Option (Nat × LogEntry))
      (j : Nat) (e : LogEntry),
      selectNextAux i best slots = some (j, e) →
      (∀ j' b, best = some (j', b) → tsLe e b) ∧
      (∀ x, some x ∈ slots → tsLe e x) := by
  intro slots
  induction slots with
  | nil =>
    intro i best j e h
    simp only [selectNextAux] at h
    subst h
    refine ⟨fun j' b hb => ?_, fun x hx => absurd hx (List.not_mem_nil _)⟩
    cases hb
    exact tsLe_refl e
  | cons o rest ih =>
    intro i best j e h
    cases o with
    | none =>
      simp only [selectNextAux] at h
      obtain ⟨h1, h2⟩ := ih (i + 1) best j e h
      refine ⟨h1, fun x hx => ?_⟩
      rcases List.mem_cons.mp hx with hx | hx
      · cases hx
      · exact h2 x hx
    | some e0 =>
      cases best with
      | none =>
        simp only [selectNextAux] at h
        obtain ⟨h1, h2⟩ := ih (i + 1) (some (i, e0)) j e h
        refine ⟨fun j' b hb => (nomatch hb), fun x hx => ?_⟩
        rcases List.mem_cons.mp hx with hx | hx
        · cases hx
          exact h1 i e0 rfl
        · exact h2 x hx
      | some p =>
        obtain ⟨jb, b⟩ := p
        simp only [selectNextAux] at h
        by_cases hcmp : b.sec > e0.sec ∨ (b.sec = e0.sec ∧ b.nsec > e0.nsec)
        · rw [if_pos hcmp] at h
          obtain ⟨h1, h2⟩ := ih (i + 1) (some (i, e0)) j e h
          have hee0 : tsLe e e0 := h1 i e0 rfl
          have he0b : tsLe e0 b := tsLe_of_gt hcmp
          refine ⟨fun j' b' hb' => ?_, fun x hx => ?_⟩
          · cases hb'
            exact tsLe_trans hee0 he0b
          · rcases List.mem_cons.mp hx with hx | hx
            · cases hx
              exact hee0
            · exact h2 x hx
        · rw [if_neg hcmp] at h
          obtain ⟨h1, h2⟩ := ih (i + 1) (some (jb, b)) j e h
          have heb : tsLe e b := h1 jb b rfl
          have hbe0 : tsLe b e0 := tsLe_of_not_gt hcmp
          refine ⟨fun j' b' hb' => ?_, fun x hx => ?_⟩
          · cases hb'
            exact heb
          · rcases List.mem_cons.mp hx with hx | hx
            · cases hx
              exact tsLe_trans heb hbe0
            · exact h2 x hx

theorem selectNextAux_mem :
    ∀ (slots : List (Option LogEntry)) (i : Nat) (best : Option (Nat × LogEntry))
      (j : Nat) (e : LogEntry),
      selectNextAux i best slots = some (j, e) →
      (∃ j', best = some (j', e)) ∨ some e ∈ slots := by
  intro slots
  induction slots with
  | nil =>
    intro i best j e h
    simp only [selectNextAux] at h
    subst h
    exact Or.inl ⟨j, rfl⟩
  | cons o rest ih =>
    intro i best j e h
    cases o with
    | none =>
      simp only [selectNextAux] at h
      rcases ih (i + 1) best j e h with h1 | h1
      · exact Or.inl h1
      · exact Or.inr (List.mem_cons_of_mem _ h1)
    | some e0 =>
      cases best with
      | none =>
        simp only [selectNextAux] at h
        rcases ih (i + 1) (some (i, e0)) j e h with ⟨j', h1⟩ | h1
        · cases h1
          exact Or.inr (List.mem_cons_self _ _)
        · exact Or.inr (List.mem_cons_of_mem _ h1)
      | some p =>
        obtain ⟨jb, b⟩ := p
        simp only [selectNextAux] at h
        by_cases hcmp : b.sec > e0.sec ∨ (b.sec = e0.sec ∧ b.nsec > e0.nsec)
        · rw [if_pos hcmp] at h
          rcases ih (i + 1) (some (i, e0)) j e h with ⟨j', h1⟩ | h1
          · cases h1
            exact Or.inr (List.mem_cons_self _ _)
          · exact Or.inr (List.mem_cons_of_mem _ h1)
        · rw [if_neg hcmp] at h
          rcases ih (i + 1) (some (jb, b)) j e h with ⟨j', h1⟩ | h1
          · cases h1
            exact Or.inl ⟨jb, rfl⟩
          · exact Or.inr (List.mem_cons_of_mem _ h1)

theorem selectNext_spec (slots : List (Option LogEntry)) (j : Nat) (e : LogEntry)
    (h : selectNext slots = some (j, e)) :
    some e ∈ slots ∧ ∀ x, some x ∈ slots → tsLe e x := by
  unfold selectNext at h
  refine ⟨?_, (selectNextAux_min slots 0 none j e h).2⟩
  rcases selectNextAux_mem slots 0 none j e h with ⟨j', h1⟩ | h1
  · cases h1
  · exact h1

/-- Per-device invariant: the slot entry (if any) precedes every pending
entry, the pending entries are mutually ordered, and all pending read results
are entries (no EAGAIN, no error) — the situation in which every buffered
entry is available. -/
def rdLe (r s : RdRes) : Prop :=
  ∀ e f, r = RdRes.ent e → s = RdRes.ent f → tsLe e f

def DevInv (d : LogDev) : Prop :=
  (∀ e, d.1 = some e → ∀ f, RdRes.ent f ∈ d.2 → tsLe e f) ∧
  d.2.Pairwise rdLe ∧
  (∀ r ∈ d.2, ∃ e, r = RdRes.ent e)

def Inv (devs : List LogDev) : Prop := ∀ d ∈ devs, DevInv d

/-- `x` is buffered in the state: in some device's slot or pending reads. -/
def inState (x : LogEntry) (devs : List LogDev) : Prop :=
  ∃ d ∈ devs, d.1 = some x ∨ RdRes.ent x ∈ d.2

theorem readDev_spec (d d1 : LogDev) (hinv : DevInv d) (h : readDev d = some d1) :
    DevInv d1 ∧
    (∀ x, (d1.1 = some x ∨ RdRes.ent x ∈ d1.2) → (d.1 = some x ∨ RdRes.ent x ∈ d.2)) ∧
    (d1.1 = none → d1.2 = []) := by
  obtain ⟨hslot, hpw, hall⟩ := hinv
  obtain ⟨sl, strm⟩ := d
  cases sl with
  | some e =>
    simp only [readDev] at h
    cases h
    exact ⟨⟨hslot, hpw, hall⟩, fun x hx => hx, fun hn => nomatch hn⟩
  | none =>
    cases strm with
    | nil =>
      simp only [readDev] at h
      cases h
      exact ⟨⟨hslot, hpw, hall⟩, fun x hx => hx, fun _ => rfl⟩
    | cons r rest =>
      cases r with
      | ent e =>
        simp only [readDev] at h
        cases h
        refine ⟨⟨?_, hpw.of_cons, fun r hr => hall r (List.mem_cons_of_mem _ hr)⟩, ?_, ?_⟩
        · intro e' he' f hf
          cases he'
          exact List.rel_of_pairwise_cons hpw hf _ _ rfl rfl
        · intro x hx
          rcases hx with hx | hx
          · cases hx
            exact Or.inr (List.mem_cons_self _ _)
          · exact Or.inr (List.mem_cons_of_mem _ hx)
        · intro hn
          cases hn
      | again =>
        obtain ⟨e, he⟩ := hall RdRes.again (List.mem_cons_self _ _)
        cases he
      | err =>
        simp only [readDev] at h
        cases h

theorem readPhase_spec :
    ∀ (devs devs1 : List LogDev), Inv devs → readPhase devs = some devs1 →
      Inv devs1 ∧
      (∀ x, inState x devs1 → inState x devs) ∧
      (∀ d1 ∈ devs1, d1.1 = none → d1.2 = []) := by
  intro devs
  induction devs with
  | nil =>
    intro devs1 _ h
    simp only [readPhase] at h
    cases h
    exact ⟨fun d hd => absurd hd (List.not_mem_nil _),
      fun x hx => hx,
      fun d hd => absurd hd (List.not_mem_nil _)⟩
  | cons d ds ih =>
    intro devs1 hinv h
    simp only [readPhase] at h
    cases hrd : readDev d with
    | none => rw [hrd] at h; cases h
    | some d1 =>
      rw [hrd] at h
      cases hrp : readPhase ds with
      | none => rw [hrp] at h; cases h
      | some ds1 =>
        rw [hrp] at h
        cases h
        obtain ⟨hinv1, hsub1, hemp1⟩ :=
          readDev_spec d d1 (hinv d (List.mem_cons_self _ _)) hrd
        obtain ⟨hinv2, hsub2, hemp2⟩ :=
          ih ds1 (fun d' hd' => hinv d' (List.mem_cons_of_mem _ hd')) hrp
        refine ⟨?_, ?_, ?_⟩
        · intro d' hd'
          rcases List.mem_cons.mp hd' with hd' | hd'
          · cases hd'
            exact hinv1
          · exact hinv2 d' hd'
        · intro x hx
          obtain ⟨d', hd', hcase⟩ := hx
          rcases List.mem_cons.mp hd' with hd' | hd'
          · cases hd'
            exact ⟨d, List.mem_cons_self _ _, hsub1 x hcase⟩
          · obtain ⟨d'', hd'', hc''⟩ := hsub2 x ⟨d', hd', hcase⟩
            exact ⟨d'', List.mem_cons_of_mem _ hd'', hc''⟩
        · intro d' hd'
          rcases List.mem_cons.mp hd' with hd' | hd'
          · cases hd'
            exact hemp1
          · exact hemp2 d' hd'

theorem clearSlot_spec (devs : List LogDev) (j : Nat) (hinv : Inv devs) :
    Inv (clearSlot devs j) ∧ (∀ x, inState x (clearSlot devs j) → inState x devs) := by
  unfold clearSlot
  cases hg : devs.get? j with
  | none => exact ⟨hinv, fun x hx => hx⟩
  | some dj =>
    have hdj : dj ∈ devs := List.get?_mem hg
    obtain ⟨hs, hpw, hall⟩ := hinv dj hdj
    constructor
    · intro d' hd'
      rcases List.mem_or_eq_of_mem_set hd' with hd' | hd'
      · exact hinv d' hd'
      · subst hd'
        exact ⟨fun e he => (nomatch he), hpw, hall⟩
    · intro x hx
      obtain ⟨d', hd', hcase⟩ := hx
      rcases List.mem_or_eq_of_mem_set hd' with hd' | hd'
      · exact ⟨d', hd', hcase⟩
      · subst hd'
        rcases hcase with hcase | hcase
        · cases hcase
        · exact ⟨dj, hdj, Or.inr hcase⟩

theorem select_dominates (devs : List LogDev) (j : Nat) (e : LogEntry)
    (hsel : selectNext (devs.map Prod.fst) = some (j, e))
    (hempty : ∀ d ∈ devs, d.1 = none → d.2 = [])
    (hinv : Inv devs) :
    inState e devs ∧ ∀ x, inState x devs → tsLe e x := by
  obtain ⟨hmem, hmin⟩ := selectNext_spec (devs.map Prod.fst) j e hsel
  obtain ⟨d0, hd0, hd0e⟩ := List.mem_map.mp hmem
  constructor
  · exact ⟨d0, hd0, Or.inl hd0e⟩
  · intro x hx
    obtain ⟨d, hd, hcase⟩ := hx
    rcases hcase with hcase | hcase
    · exact hmin x (List.mem_map.mpr ⟨d, hd, hcase⟩)
    · cases hslot : d.1 with
      | some y =>
        have h1 : tsLe e y := hmin y (List.mem_map.mpr ⟨d, hd, hslot⟩)
        have h2 : tsLe y x := (hinv d hd).1 y hslot x hcase
        exact tsLe_trans h1 h2
      | none =>
        rw [hempty d hd hslot] at hcase
        cases hcase

theorem plRun_sorted (prio : Int) :
    ∀ (fuel : Nat) (devs : List LogDev) (con : Console) (ns : Nat) (added : Bool)
      (tr : List LogEntry) (ops : List ConsoleOp) (ds : List LogDev) (c : Console)
      (n : Nat) (a : Bool),
      Inv devs →
      plRun prio fuel devs con ns added = PLRes.ok tr ops ds c n a →
      tr.Pairwise tsLe ∧ ∀ x ∈ tr, inState x devs := by
  intro fuel
  induction fuel with
  | zero =>
    intro devs con ns added tr ops ds c n a _ h
    exact (nomatch h)
  | succ fuel ih =>
    intro devs con ns added tr ops ds c n a hinv h
    simp only [plRun] at h
    split at h
    · exact (nomatch h)
    next devs1 hrp =>
      obtain ⟨hinv1, hsub1, hemp1⟩ := readPhase_spec devs devs1 hinv hrp
      split at h
      next hsel =>
        cases h
        exact ⟨List.Pairwise.nil, fun x hx => absurd hx (List.not_mem_nil _)⟩
      next j e hsel =>
        split at h
        next tr' ops' ds' c' n' a' hrec =>
          cases h
          obtain ⟨hinvc, hsubc⟩ := clearSlot_spec devs1 j hinv1
          obtain ⟨hpw, hmem⟩ := ih (clearSlot devs1 j) _ _ _ _ _ _ _ _ _ hinvc hrec
          obtain ⟨hein, hdom⟩ := select_dominates devs1 j e hsel hemp1 hinv1
          constructor
          · exact List.Pairwise.cons (fun x hx => hdom x (hsubc x (hmem x hx))) hpw
          · intro x hx
            rcases List.mem_cons.mp hx with hx | hx
            · subst hx
              exact hsub1 x hein
            · exact hsub1 x (hsubc x (hmem x hx))
        next hrec => exact (nomatch h)
        next hrec => exact (nomatch h)

theorem plRun_ns_mono (prio : Int) :
    ∀ (fuel : Nat) (devs : List LogDev) (con : Console) (ns : Nat) (added : Bool)
      (tr : List LogEntry) (ops : List ConsoleOp) (ds : List LogDev) (c : Console)
      (n : Nat) (a : Bool),
      plRun prio fuel devs con ns added = PLRes.ok tr ops ds c n a →
      ns ≤ n := by
  intro fuel
  induction fuel with
  | zero =>
    intro devs con ns added tr ops ds c n a h
    exact (nomatch h)
  | succ fuel ih =>
    intro devs con ns added tr ops ds c n a h
    simp only [plRun] at h
    split at h
    · exact (nomatch h)
    next devs1 hrp =>
      split at h
      next hsel =>
        cases h
        exact Nat.le_refl _
      next j e hsel =>
        split at h
        next tr' ops' ds' c' n' a' hrec =>
          cases h
          have := ih _ _ _ _ _ _ _ _ _ _ hrec
          omega
        next hrec => exact (nomatch h)
        next hrec => exact (nomatch h)

/-- Claim C1: in every poll cycle (one processLog call), the selection loop
picks, among all devices with a filled slot, an entry with the smallest
`(sec, nsec)` pair (first conjunct: the selected entry is one of the filled
slots and is `tsLe`-below all of them); and when every device's buffered
entries are all readable (no EAGAIN) and per-device in timestamp order — the
LogEntry invariant — the delivered sequence of a completed run is globally
sorted by `(sec, nsec)`; in particular, of two buffered entries from
different devices with different `sec`, the one with smaller `sec` is
delivered first. -/
theorem c1_multiplexer_merge_order :
    (∀ (slots : List (Option LogEntry)) (j : Nat) (e : LogEntry),
      selectNext slots = some (j, e) →
      some e ∈ slots ∧ ∀ x, some x ∈ slots → tsLe e x) ∧
    (∀ (prio : Int) (fuel : Nat) (streams : List (List LogEntry)) (con : Console)
      (ns : Nat) (tr : List LogEntry) (ops : List ConsoleOp) (ds : List LogDev)
      (c : Console) (n : Nat) (a : Bool),
      (∀ l ∈ streams, l.Pairwise tsLe) →
      processLog prio fuel (streams.map (List.map RdRes.ent)) con ns =
        PLRes.ok tr ops ds c n a →
      tr.Pairwise tsLe ∧
      tr.Pairwise (fun p q => p.sec ≠ q.sec → p.sec < q.sec)) := by
  constructor
  · intro slots j e h
    exact selectNext_spec slots j e h
  · intro prio fuel streams con ns tr ops ds c n a hsort h
    unfold processLog at h
    have hinv : Inv ((streams.map (List.map RdRes.ent)).map
        fun l => ((none : Option LogEntry), l)) := by
      intro d hd
      obtain ⟨l1, hl1, hd1⟩ := List.mem_map.mp hd
      obtain ⟨l0, hl0, hl01⟩ := List.mem_map.mp hl1
      subst hd1
      subst hl01
      refine ⟨fun e he => (nomatch he), ?_, ?_⟩
      · show (l0.map RdRes.ent).Pairwise rdLe
        rw [List.pairwise_map]
        refine (hsort l0 hl0).imp ?_
        intro p q hpq
        intro e f he hf
        cases he
        cases hf
        exact hpq
      · intro r hr
        obtain ⟨e0, _, he0⟩ := List.mem_map.mp hr
        exact ⟨e0, he0.symm⟩
    have hres := plRun_sorted prio fuel _ con ns false tr ops ds c n a hinv h
    refine ⟨hres.1, hres.1.imp ?_⟩
    intro p q hpq hne
    unfold tsLe at hpq
    omega

def wE1 : LogEntry := ⟨1, 0, 4, [], []⟩
def wE2 : LogEntry := ⟨2, 5, 4, [], []⟩
def wE3 : LogEntry := ⟨3, 0, 4, [], []⟩

/-- Witness for C1: the selection lemma applied to two concrete filled slots,
and a concrete three-entry two-device run whose delivered order is sorted. -/
theorem c1_witness :
    tsLe wE1 wE2 ∧ List.Pairwise tsLe [wE1, wE2, wE3] :=
  ⟨(c1_multiplexer_merge_order.1 [some wE1, some wE2] 0 wE1 (by decide)).2 wE2 (by decide),
   (c1_multiplexer_merge_order.2 100 5 [[wE1, wE3], [wE2]] (initBuffer 1 1) 0
      [wE1, wE2, wE3] [] [(none, []), (none, [])] (initBuffer 1 1) 0 false
      (by decide) (by decide)).1⟩

/-! ## Claim theorems C6: the boot-loop counter and banner. -/

/-- The designated runtime-start marker entry, as logged by AndroidRuntime. -/
def markerEntry : LogEntry :=
  ⟨5, 0, 4, "AndroidRuntime".data,
    ">>>>>>>>>>>>>> AndroidRuntime START <<<<<<<<<<<<<<".data⟩

/-- Claim C6, counterexample: in sentinel mode the runtime-start marker entry
increments the boot-loop counter AND is itself printed (the printLine call at
line 552 is outside the inner marker test), contradicting "without printing
the marker entry itself". -/
theorem c6_counterexample :
    (filterOps ANDROID_LOG_FATAL markerEntry).2 = 1 ∧
    (filterOps ANDROID_LOG_FATAL markerEntry).1 =
      [ConsoleOp.print (fmtEntry markerEntry)] := by
  decide

/-- Claim C6, amended: once the boot-loop counter exceeds 1, every completed
iteration of the text loop prepends the three-line warning banner to that
iteration's console output (once per iteration, before the iteration's log
lines — not once per processed entry), and the counter never decreases, so
this holds for every subsequent iteration until the session ends; each
sentinel-mode entry carrying the marker tag and message increments the
counter by one and is itself printed. -/
theorem c6_boot_loop_banner_amended :
    (∀ (fuel : Nat) (rd : Option InputEvent) (st st' : TickState)
      (ops : List ConsoleOp) (sd : Bool),
      textTick fuel rd st = TickRes.tick st' ops sd →
      (st.nStartups > 1 → ∃ rest, ops = bannerOps ++ rest) ∧
      st.nStartups ≤ st'.nStartups) ∧
    (∀ e : LogEntry,
      listPfx "AndroidRuntime".data e.tag = true →
      listPfx markerPfx e.message = true →
      (filterOps ANDROID_LOG_FATAL e).2 = 1 ∧
      ConsoleOp.print (fmtEntry e) ∈ (filterOps ANDROID_LOG_FATAL e).1) := by
  constructor
  · intro fuel rd st st' ops sd h
    unfold textTick at h
    split at h
    next tr0 ops0 devs0 c0 n0 added0 hpl =>
      cases h
      constructor
      · intro hns
        rw [if_pos hns]
        exact ⟨ops0, rfl⟩
      · show st.nStartups ≤ n0
        unfold processLog at hpl
        exact plRun_ns_mono _ fuel _ _ _ _ _ _ _ _ _ _ hpl
    next hpl => exact (nomatch h)
    next hpl => exact (nomatch h)
  · intro e h1 h2
    constructor
    · unfold filterOps
      rw [if_neg (by simp)]
      simp only [h1, h2, Bool.and_self, if_true]
    · unfold filterOps
      rw [if_neg (by simp)]
      simp only [h1, h2, Bool.and_self, if_true]
      by_cases h3 : listPfx "SystemServer".data e.tag = true <;>
        by_cases h4 : (listPfx "insta".data e.tag && listPfx "DexInv: --- BEG".data e.message) = true <;>
        by_cases h5 : (listPfx "PackageManager".data e.tag && listPfx "Unpacking nati".data e.message) = true <;>
        simp [h3, h4, h5]

def ts6 : TickState := ⟨-1, 7, false, initBuffer 2 30, 2, []⟩

/-- Witness for the amended C6 theorem: a concrete tick with counter 2 and
no pending log data emits exactly the banner; the marker entry increments
the counter and is printed. -/
theorem c6_witness :
    ((∃ rest, bannerOps ++ ([] : List ConsoleOp) = bannerOps ++ rest) ∧ (2 : Nat) ≤ 2) ∧
    ((filterOps ANDROID_LOG_FATAL markerEntry).2 = 1 ∧
      ConsoleOp.print (fmtEntry markerEntry) ∈ (filterOps ANDROID_LOG_FATAL markerEntry).1) :=
  ⟨by
    have h := c6_boot_loop_banner_amended.1 1 none ts6
      ⟨-1, 7, false, applyOps (initBuffer 2 30) bannerOps, 2, []⟩
      (bannerOps ++ []) false (by decide)
    exact ⟨h.1 (by decide), h.2⟩,
   c6_boot_loop_banner_amended.2 markerEntry (by decide) (by decide)⟩
